import Mathlib

/-!
Verification of the `xiaomi-avbroot` repacking script (`xiaomi-avbroot.py`).

The script unpacks a set of fastboot partition images into per-partition
AVB metadata (`avb.toml`) plus payload, and repacks them into a
cross-signed image set.  The interesting logic is:

* the dependency graph built from `partition_name`-bearing descriptors and
  the topological pack order (`TopologicalSorter(...).static_order()`),
* the descriptor/public-key propagation into vbmeta headers before packing,
* the AVB metadata synthesizer for bare images,
* the dynamic (LP) partition slot mapping with its `_a`/`_b` invariants,
* the avbroot version gate.

Every definition below is a direct shallow embedding of the corresponding
Python function; machine integers are `Nat` (toml integers are
non-negative), fallible steps return `Option`/`Except`, and filesystem or
subprocess effects are replaced by explicit inputs and returned traces.
-/

set_option maxHeartbeats 1000000

namespace XiaomiAvbroot

abbrev Name := String

/-! ## Python string primitives used by the script -/

/-- Python `s.endswith(suffix)`. -/
def endswith (s sfx : String) : Bool := sfx.data.isSuffixOf s.data

/-- Python `s.startswith(pre)`. -/
def startswith (s pre : String) : Bool := pre.data.isPrefixOf s.data

/-- Python `s.removesuffix(sfx)`: drop `sfx` from the end when present. -/
def removesuffix (s sfx : String) : String :=
  if endswith s sfx then String.mk (s.data.take (s.data.length - sfx.data.length)) else s

/-- Python `'0' * n`. -/
def zeros (n : Nat) : String := String.mk (List.replicate n '0')

/-! ## Data model: the `avb.toml` metadata tree

A descriptor is a tagged record (`type` is the tag).  `partition_name` is
`some _` exactly when the Python dict has a `'partition_name'` key.  All
fields not referenced by the script are collapsed into the opaque `other`
field, preserved verbatim by every operation. -/

structure Descriptor where
  type : String
  partition_name : Option Name
  public_key : String
  rollback_index_location : Nat
  other : String
deriving DecidableEq, Repr

structure AvbHeader where
  required_libavb_version_major : Nat
  required_libavb_version_minor : Nat
  algorithm_type : String
  hash : String
  signature : String
  public_key : String
  public_key_metadata : String
  rollback_index : Nat
  flags : Nat
  rollback_index_location : Nat
  release_string : String
  reserved : String
  descriptors : List Descriptor
deriving DecidableEq, Repr

structure AvbFooter where
  version_major : Nat
  version_minor : Nat
  original_image_size : Nat
  vbmeta_offset : Nat
  vbmeta_size : Nat
  reserved : String
deriving DecidableEq, Repr

structure AvbInfo where
  image_size : Nat
  header : AvbHeader
  footer : AvbFooter
deriving DecidableEq, Repr

/-! ## `avb_generate_metadata` (source lines 52-82)

Synthesizes placeholder AVB metadata for an LP image that carries no
native AVB footer, from the reference descriptor found in a vbmeta
header. -/

def avb_generate_metadata (descriptor : Descriptor) : AvbInfo :=
  let is_signed := descriptor.type = "ChainPartition"
  { image_size := 0
    header :=
      { required_libavb_version_major := 1
        required_libavb_version_minor := 0
        algorithm_type := if is_signed then "Sha256Rsa4096" else "None"
        hash := if is_signed then zeros 64 else ""
        signature := if is_signed then zeros 512 else ""
        public_key := if is_signed then zeros 1032 else ""
        public_key_metadata := ""
        rollback_index := 0
        flags := 0
        rollback_index_location := 0
        release_string := "avbtool 1.3.0"
        reserved := zeros 160
        descriptors := [descriptor] }
    footer :=
      { version_major := 1
        version_minor := 0
        original_image_size := 0
        vbmeta_offset := 0
        vbmeta_size := 0
        reserved := zeros 56 } }

/-! ## `avb_pack` extra arguments (source lines 104-114)

The image size is recomputed exactly when some descriptor in the
partition's header is a `HashTree` descriptor. -/

def avb_pack_recompute (descriptors : List Descriptor) : Bool :=
  descriptors.any (fun d => d.type == "HashTree")

def avb_pack_extra_args (descriptors : List Descriptor) : List String :=
  if avb_pack_recompute descriptors then ["--recompute-size"] else []

/-! ## `check_avbroot_version` (source lines 30-37) and `main` (435-447)

The reported version, already split into integer components, is compared
against the required minimum with Python tuple ordering. -/

def AVBROOT_REQUIRED_VERSION : List Nat := [3, 19, 0]

/-- Python `tuple <` on integer tuples: lexicographic, a strict prefix is
smaller. -/
def tupleLt : List Nat → List Nat → Bool
  | [], [] => false
  | [], _ :: _ => true
  | _ :: _, [] => false
  | a :: as, b :: bs => if a < b then true else if b < a then false else tupleLt as bs

def check_avbroot_version (version : List Nat) : Except String Unit :=
  if tupleLt version AVBROOT_REQUIRED_VERSION then
    .error "avbroot version < required"
  else
    .ok ()

/-- The body of `main` after argument parsing: the version gate runs first
and aborts the run before either subcommand can process anything.  The
subcommand itself is abstracted as its would-be result: an error, or the
list of partitions it processes. -/
def main_model (version : List Nat) (subcommand : Except String (List Name)) :
    Except String (List Name) :=
  match check_avbroot_version version with
  | .error e => .error e
  | .ok () => subcommand

/-- Partitions actually processed by a finished run. -/
def processed : Except String (List Name) → List Name
  | .error _ => []
  | .ok l => l

/-! ## Unpack image selection (source lines 232-252 and 310-315)

`unpack_subcommand` unpacks: the `vbmeta*.img` files, the LP (`super`)
partitions listed in the LP manifest, and then every remaining partition
that is named by some collected descriptor
(`avb_descriptors.keys() - vbmeta_images - lp_images`).  Any other image
file in the input directory is never touched. -/

def unpacked_images (input_images descriptor_names lp_names : List Name) : List Name :=
  input_images.filter (fun n => startswith n "vbmeta") ++ lp_names ++
    descriptor_names.filter (fun n =>
      decide (n ∉ input_images.filter (fun m => startswith m "vbmeta")) &&
        decide (n ∉ lp_names))

/-! ## Dynamic partition slot loops

Unpack direction (source lines 277-305): each LP slot is `(lp_name, size)`
where `size` is the slot image's size in bytes; `_b` slots must be empty,
`_a` slots are processed (unpacked or synthesized), anything else is an
error.  The result is the list of processed logical names. -/

def unpack_lp_loop : List (Name × Nat) → Except String (List Name)
  | [] => .ok []
  | (lp_name, size) :: rest =>
    if endswith lp_name "_b" then
      if size ≠ 0 then .error (lp_name ++ " should be empty")
      else unpack_lp_loop rest
    else if endswith lp_name "_a" = false then
      .error ("Unknown LP partition name: " ++ lp_name)
    else
      match unpack_lp_loop rest with
      | .error e => .error e
      | .ok names => .ok (removesuffix lp_name "_a" :: names)

/-- Filesystem actions of the pack-direction slot loop. -/
inductive LpAction where
  | moveImage (name lp_name : Name)
  | createEmpty (lp_name : Name)
deriving DecidableEq, Repr

/-- Pack direction (source lines 412-428): `_a` slots receive the packed
image, `_b` slots are created empty, anything else is an error. -/
def pack_lp_loop : List Name → Except String (List LpAction)
  | [] => .ok []
  | lp_name :: rest =>
    if endswith lp_name "_a" then
      match pack_lp_loop rest with
      | .error e => .error e
      | .ok acts => .ok (.moveImage (removesuffix lp_name "_a") lp_name :: acts)
    else if endswith lp_name "_b" then
      match pack_lp_loop rest with
      | .error e => .error e
      | .ok acts => .ok (.createEmpty lp_name :: acts)
    else
      .error ("Unknown LP partition name: " ++ lp_name)

/-! ## Descriptor propagation into vbmeta headers (source lines 343-372)

`avb_public_keys` and `avb_descriptors` are the run-scoped maps built by
the pack loop (Python dicts, modelled as association lists with distinct
keys, first match wins). -/

def assocGet (k : Name) : List (Name × α) → Option α
  | [] => none
  | (k', v) :: rest => if k' = k then some v else assocGet k rest

/-- Update of one vbmeta descriptor (source lines 353-364).  A missing
`avb_descriptors` entry is the Python `KeyError`, modelled as `none`. -/
def propagate_descriptor (avb_public_keys : List (Name × String))
    (avb_descriptors : List (Name × Descriptor)) (d : Descriptor) : Option Descriptor :=
  match d.partition_name with
  | none => some d
  | some partition_name =>
    match assocGet partition_name avb_public_keys with
    | some key => some { d with public_key := key }
    | none => assocGet partition_name avb_descriptors

/-- The enumerate-and-replace loop over the descriptor list, failing at the
first `KeyError`. -/
def mapOption (f : α → Option β) : List α → Option (List β)
  | [] => some []
  | a :: rest =>
    match f a, mapOption f rest with
    | some b, some bs => some (b :: bs)
    | _, _ => none

/-- The vbmeta branch of the pack loop (source lines 347-372): splice the
recomputed child descriptors/public keys in, then clear the low two flag
bits.  Python computes `flags & ~3` on a non-negative int, which is
`flags - flags % 4`. -/
def prepare_vbmeta (avb_public_keys : List (Name × String))
    (avb_descriptors : List (Name × Descriptor)) (h : AvbHeader) : Option AvbHeader :=
  match mapOption (propagate_descriptor avb_public_keys avb_descriptors) h.descriptors with
  | none => none
  | some descriptors =>
    some { h with descriptors := descriptors, flags := h.flags - h.flags % 4 }

/-- Per-partition header preparation in the pack loop (source lines
343-376): only names starting with `vbmeta` get the rewrite; every other
partition's `avb.toml` goes to `avb_pack` untouched. -/
def pack_prepare (name : Name) (avb_public_keys : List (Name × String))
    (avb_descriptors : List (Name × Descriptor)) (h : AvbHeader) : Option AvbHeader :=
  if startswith name "vbmeta" then prepare_vbmeta avb_public_keys avb_descriptors h
  else some h

/-! ## Dependency graph and topological pack order (source lines 321-335)

The graph maps each partition directory name to the `partition_name`s of
its header's descriptors, own name excluded (the source stores them in a
set; a list with the same members is used here, membership is all that the
algorithm consumes).  `TopologicalSorter.static_order()` is Kahn's
algorithm: referenced names that are not keys become implicit nodes with
no dependencies; if some nodes can never become ready the sorter raises
`CycleError`, otherwise all nodes are emitted, dependencies first. -/

abbrev Graph := List (Name × List Name)

/-- The dependency graph, `avb_dep_graph` in the source.  The source keeps
each node's dependencies in a Python `set()`, whose iteration order is
string-hash-randomized between interpreter runs; the dependency list here
stands for one concrete iteration order of that set, so two runs of the
program on the same abstract graph are modelled by two `Graph` values whose
dependency lists are permutations of each other. -/
def build_dep_graph (images : List (Name × AvbHeader)) : Graph :=
  images.map (fun p =>
    (p.1, (p.2.descriptors.filterMap (fun d => d.partition_name)).filter
      (fun n => decide (n ≠ p.1))))

/-- Nodes in first-mention order: each key, then its dependencies. -/
def insertNode (l : List Name) (n : Name) : List Name :=
  if n ∈ l then l else l ++ [n]

def addEntry (acc : List Name) (p : Name × List Name) : List Name :=
  p.2.foldl insertNode (insertNode acc p.1)

def allNodes (g : Graph) : List Name :=
  g.foldl addEntry []

/-- Dependencies of a node: its entry in the graph, `[]` for implicit
nodes. -/
def depsOf (g : Graph) (n : Name) : List Name :=
  match g with
  | [] => []
  | (m, ds) :: rest => if m = n then ds else depsOf rest n

/-- Nodes that are ready to be emitted: not yet emitted, all dependencies
emitted. -/
def readyNodes (g : Graph) (done : List Name) : List Name :=
  (allNodes g).filter
    (fun n => decide (n ∉ done) && (depsOf g n).all (fun d => decide (d ∈ done)))

/-- Kahn's algorithm: repeatedly emit every ready node.  The fuel is an
upper bound on the number of rounds; `allNodes g |>.length + 1` rounds
always reach a fixpoint. -/
def kahnAux (g : Graph) : Nat → List Name → List Name
  | 0, done => done
  | fuel + 1, done =>
    if readyNodes g done = [] then done
    else kahnAux g fuel (done ++ readyNodes g done)

/-- Suffix of `path` starting at the first occurrence of `n` (graphlib's
`stack[node2stacki[node]:]`). -/
def cycleFrom (n : Name) : List Name → List Name
  | [] => []
  | m :: rest => if m = n then m :: rest else cycleFrom n rest

/-- First dependency of `n` that was never emitted. -/
def nextBlocked (g : Graph) (ord : List Name) (n : Name) : Option Name :=
  (depsOf g n).find? (fun d => decide (d ∉ ord))

/-- Cycle detection among the never-emitted nodes, as graphlib's
`_find_cycle` does it: follow edges inside the blocked set until a node
repeats, and return that one cycle as `stack[i:] + [node]` — the involved
nodes with the first one repeated at the end.  The fallback arms are
unreachable when `walkCycle` is started on a blocked node with enough
fuel. -/
def walkCycle (g : Graph) (ord : List Name) : Nat → Name → List Name → List Name
  | 0, _, _ => []
  | fuel + 1, n, path =>
    if n ∈ path then cycleFrom n path ++ [n]
    else
      match nextBlocked g ord n with
      | none => []
      | some d => walkCycle g ord fuel d (path ++ [n])

/-- `list(TopologicalSorter(g).static_order())`: the full pack order for an
acyclic graph, or `CycleError` carrying one detected cycle (graphlib's
`prepare()` raises before anything is emitted, naming the nodes of the
single cycle its depth-first search finds, with the first node repeated at
the end).  The `.error []` arm is unreachable: when the emitted order is
incomplete some node was never ready. -/
def static_order (g : Graph) : Except (List Name) (List Name) :=
  if (kahnAux g ((allNodes g).length + 1) []).length = (allNodes g).length then
    .ok (kahnAux g ((allNodes g).length + 1) [])
  else
    match (allNodes g).filter
        (fun n => decide (n ∉ kahnAux g ((allNodes g).length + 1) [])) with
    | [] => .error []
    | n :: _ => .error (walkCycle g (kahnAux g ((allNodes g).length + 1) [])
        ((allNodes g).length + 1) n [])

/-! ## Specification predicates for the sequencer -/

/-- The edge relation: `b` is a dependency of `a`. -/
def Dep (g : Graph) (a b : Name) : Prop := b ∈ depsOf g a

/-- Every node of the list has all its dependencies among `seen` or among
the earlier nodes of the list. -/
def topoOK (g : Graph) : List Name → List Name → Prop
  | _, [] => True
  | seen, n :: rest => (∀ d ∈ depsOf g n, d ∈ seen) ∧ topoOK g (seen ++ [n]) rest

/-- A dependency cycle: a non-empty node list that chains back to its
head. -/
def isCycle (g : Graph) (c : List Name) : Prop :=
  c ≠ [] ∧ List.Chain' (Dep g) (c ++ c.take 1)

/-- Last element of the non-empty list `a :: l`. -/
def lastOf (a : Name) : List Name → Name
  | [] => a
  | b :: t => lastOf b t

/-! ## Concrete inputs for witnesses and counterexamples -/

def chainDesc (child : Name) (rbl : Nat) (key : String) : Descriptor :=
  { type := "ChainPartition", partition_name := some child, public_key := key
    rollback_index_location := rbl, other := "" }

def hashDesc (child : Name) : Descriptor :=
  { type := "Hash", partition_name := some child, public_key := ""
    rollback_index_location := 0, other := "digest" }

def baseHeader (flags : Nat) (descriptors : List Descriptor) : AvbHeader :=
  { required_libavb_version_major := 1, required_libavb_version_minor := 0
    algorithm_type := "Sha256Rsa4096", hash := "", signature := "", public_key := ""
    public_key_metadata := "", rollback_index := 0, flags := flags
    rollback_index_location := 0, release_string := "avbtool 1.3.0", reserved := ""
    descriptors := descriptors }

/-- A small well-formed image set: a root vbmeta chaining to `vbmeta_system`
and hashing `boot`; `vbmeta_system` references `system`; `boot` and `system`
carry their own self-descriptors. -/
def imagesW : List (Name × AvbHeader) :=
  [("vbmeta", baseHeader 0 [chainDesc "vbmeta_system" 1 "k", hashDesc "boot"]),
   ("vbmeta_system", baseHeader 0 [hashDesc "system"]),
   ("boot", baseHeader 0 [hashDesc "boot"]),
   ("system", baseHeader 0 [hashDesc "system"])]

/-- A two-node dependency cycle. -/
def gCyc : Graph := [("A", ["B"]), ("B", ["A"])]

def cCyc : List Name := ["A", "B"]

/-- Two presentations of the same abstract graph (`vbmeta` depends on the
set `{a, b}`): the dependency lists are permutations of each other,
modelling two hash-randomized iteration orders of the source's `set()`. -/
def gOrd1 : Graph := [("vbmeta", ["a", "b"]), ("a", []), ("b", [])]

def gOrd2 : Graph := [("vbmeta", ["b", "a"]), ("a", []), ("b", [])]

/-- An image set whose vbmeta references a partition (`boot`) for which no
unpacked image directory (graph key) exists. -/
def imagesU : List (Name × AvbHeader) :=
  [("vbmeta", baseHeader 0 [chainDesc "boot" 1 "k"])]

/-- Inputs for the propagator: `boot` was signed (public key recorded),
`system` was not (only its recomputed descriptor is recorded). -/
def pkW : List (Name × String) := [("boot", "NEWKEY")]

def dsW : List (Name × Descriptor) := [("system", hashDesc "system")]

def hdrP : AvbHeader := baseHeader 7 [chainDesc "boot" 3 "OLDKEY", hashDesc "system"]

def hdrP' : AvbHeader := baseHeader 4 [chainDesc "boot" 3 "NEWKEY", hashDesc "system"]

def hdrB : AvbHeader := baseHeader 3 []

def hdrV3 : AvbHeader := baseHeader 3 []

def hdrV5 : AvbHeader := baseHeader 5 []

/-- Reference chain descriptor with a non-zero rollback index location. -/
def refDesc : Descriptor := chainDesc "boot" 7 ""

def slotsW : List (Name × Nat) := [("system_b", 5), ("weird", 5)]

def slotsW2 : List (Name × Nat) := [("system_a", 0), ("weird", 0)]

def namesW : List Name := ["weird"]

/-! ## Lemmas about the helpers -/

theorem zeros_length (n : Nat) : (zeros n).length = n := by
  show (List.replicate n '0').length = n
  exact List.length_replicate n _

/-! ## Lemmas: the node inventory of a graph -/

theorem mem_insertNode_iff {m : Name} {l : List Name} {n : Name} :
    m ∈ insertNode l n ↔ m ∈ l ∨ m = n := by
  unfold insertNode
  split
  · next h =>
    constructor
    · exact Or.inl
    · rintro (hm | rfl)
      · exact hm
      · exact h
  · simp

theorem foldl_insertNode_mem_iff {m : Name} :
    ∀ (xs : List Name) (l : List Name), m ∈ xs.foldl insertNode l ↔ m ∈ l ∨ m ∈ xs := by
  intro xs
  induction xs with
  | nil => simp
  | cons x xs ih =>
    intro l
    rw [List.foldl_cons, ih, mem_insertNode_iff]
    simp [or_assoc]

theorem mem_addEntry_iff {m : Name} {acc : List Name} {p : Name × List Name} :
    m ∈ addEntry acc p ↔ m ∈ acc ∨ m = p.1 ∨ m ∈ p.2 := by
  unfold addEntry
  rw [foldl_insertNode_mem_iff, mem_insertNode_iff, or_assoc]

theorem foldl_addEntry_mem_iff {m : Name} :
    ∀ (g : Graph) (acc : List Name),
      m ∈ g.foldl addEntry acc ↔ m ∈ acc ∨ ∃ p ∈ g, m = p.1 ∨ m ∈ p.2 := by
  intro g
  induction g with
  | nil => simp
  | cons q g ih =>
    intro acc
    rw [List.foldl_cons, ih, mem_addEntry_iff]
    constructor
    · rintro ((h | h | h) | ⟨p, hp, h⟩)
      · exact Or.inl h
      · exact Or.inr ⟨q, List.mem_cons_self q g, Or.inl h⟩
      · exact Or.inr ⟨q, List.mem_cons_self q g, Or.inr h⟩
      · exact Or.inr ⟨p, List.mem_cons_of_mem q hp, h⟩
    · rintro (h | ⟨p, hp, h⟩)
      · exact Or.inl (Or.inl h)
      · rcases List.mem_cons.mp hp with rfl | hp
        · rcases h with h | h
          · exact Or.inl (Or.inr (Or.inl h))
          · exact Or.inl (Or.inr (Or.inr h))
        · exact Or.inr ⟨p, hp, h⟩

theorem mem_allNodes_iff {m : Name} {g : Graph} :
    m ∈ allNodes g ↔ ∃ p ∈ g, m = p.1 ∨ m ∈ p.2 := by
  unfold allNodes
  rw [foldl_addEntry_mem_iff]
  simp

theorem insertNode_nodup {l : List Name} (h : l.Nodup) (n : Name) :
    (insertNode l n).Nodup := by
  unfold insertNode
  split
  · exact h
  · next hn =>
    refine List.Nodup.append h (List.nodup_singleton n) ?_
    intro a ha hmem
    rw [List.mem_singleton] at hmem
    subst hmem
    exact hn ha

theorem foldl_insertNode_nodup :
    ∀ (xs : List Name) (l : List Name), l.Nodup → (xs.foldl insertNode l).Nodup := by
  intro xs
  induction xs with
  | nil => intro l h; exact h
  | cons x xs ih =>
    intro l h
    exact ih _ (insertNode_nodup h x)

theorem addEntry_nodup {acc : List Name} (h : acc.Nodup) (p : Name × List Name) :
    (addEntry acc p).Nodup :=
  foldl_insertNode_nodup _ _ (insertNode_nodup h p.1)

theorem allNodes_nodup (g : Graph) : (allNodes g).Nodup := by
  unfold allNodes
  suffices h : ∀ (g' : Graph) (acc : List Name), acc.Nodup → (g'.foldl addEntry acc).Nodup by
    exact h g [] List.nodup_nil
  intro g'
  induction g' with
  | nil => intro acc h; exact h
  | cons q g' ih => intro acc h; exact ih _ (addEntry_nodup h q)

/-! ## Lemmas: dependencies -/

theorem depsOf_nil_or_mem (g : Graph) (n : Name) :
    depsOf g n = [] ∨ (n, depsOf g n) ∈ g := by
  induction g with
  | nil => exact Or.inl rfl
  | cons q g ih =>
    obtain ⟨m, ds⟩ := q
    by_cases h : m = n
    · subst h
      right
      simp [depsOf]
    · rw [show depsOf ((m, ds) :: g) n = depsOf g n by simp [depsOf, h]]
      rcases ih with h' | h'
      · exact Or.inl h'
      · exact Or.inr (List.mem_cons_of_mem _ h')

theorem mem_allNodes_of_dep {g : Graph} {n d : Name} (h : d ∈ depsOf g n) :
    n ∈ allNodes g ∧ d ∈ allNodes g := by
  rcases depsOf_nil_or_mem g n with h' | h'
  · rw [h'] at h
    exact absurd h (List.not_mem_nil d)
  · exact ⟨mem_allNodes_iff.mpr ⟨_, h', Or.inl rfl⟩,
      mem_allNodes_iff.mpr ⟨_, h', Or.inr h⟩⟩

theorem mem_allNodes_of_key {g : Graph} {n : Name} {ds : List Name} (h : (n, ds) ∈ g) :
    n ∈ allNodes g :=
  mem_allNodes_iff.mpr ⟨_, h, Or.inl rfl⟩

theorem mem_allNodes_of_entry_dep {g : Graph} {n d : Name} {ds : List Name}
    (h : (n, ds) ∈ g) (hd : d ∈ ds) : d ∈ allNodes g :=
  mem_allNodes_iff.mpr ⟨_, h, Or.inr hd⟩

theorem depsOf_eq_of_keys_nodup {g : Graph} (hkeys : (g.map Prod.fst).Nodup) :
    ∀ {n : Name} {ds : List Name}, (n, ds) ∈ g → depsOf g n = ds := by
  induction g with
  | nil => intro n ds h; exact absurd h (List.not_mem_nil _)
  | cons q g ih =>
    intro n ds h
    obtain ⟨m, es⟩ := q
    rw [List.map_cons, List.nodup_cons] at hkeys
    rcases List.mem_cons.mp h with h' | h'
    · injection h' with h1 h2
      subst h1; subst h2
      simp [depsOf]
    · have hmn : m ≠ n := by
        intro h''
        subst h''
        exact hkeys.1 (List.mem_map.mpr ⟨(m, ds), h', rfl⟩)
      rw [show depsOf ((m, es) :: g) n = depsOf g n by simp [depsOf, hmn]]
      exact ih hkeys.2 h'

/-! ## Lemmas: ready nodes -/

theorem mem_readyNodes {g : Graph} {done : List Name} {n : Name} :
    n ∈ readyNodes g done ↔
      n ∈ allNodes g ∧ n ∉ done ∧ ∀ d ∈ depsOf g n, d ∈ done := by
  unfold readyNodes
  rw [List.mem_filter]
  simp [List.all_eq_true]

theorem readyNodes_nodup (g : Graph) (done : List Name) : (readyNodes g done).Nodup :=
  List.Nodup.filter _ (allNodes_nodup g)

/-! ## Lemmas: the topological-order predicate -/

theorem topoOK_append {g : Graph} :
    ∀ (l₁ l₂ seen : List Name),
      topoOK g seen (l₁ ++ l₂) ↔ topoOK g seen l₁ ∧ topoOK g (seen ++ l₁) l₂ := by
  intro l₁
  induction l₁ with
  | nil => intro l₂ seen; simp [topoOK]
  | cons n t ih =>
    intro l₂ seen
    show (∀ d ∈ depsOf g n, d ∈ seen) ∧ topoOK g (seen ++ [n]) (t ++ l₂) ↔
      ((∀ d ∈ depsOf g n, d ∈ seen) ∧ topoOK g (seen ++ [n]) t) ∧ _
    rw [ih]
    simp only [List.append_assoc, List.singleton_append, and_assoc]

theorem topoOK_of_seen {g : Graph} :
    ∀ (l seen : List Name), (∀ x ∈ l, ∀ d ∈ depsOf g x, d ∈ seen) → topoOK g seen l := by
  intro l
  induction l with
  | nil => intro seen _; trivial
  | cons n t ih =>
    intro seen h
    refine ⟨h n (List.mem_cons_self n t), ih _ ?_⟩
    intro x hx d hd
    exact List.mem_append_left _ (h x (List.mem_cons_of_mem n hx) d hd)

theorem topoOK_pos {g : Graph} :
    ∀ (ord seen : List Name), topoOK g seen ord → ord.Nodup →
      ∀ n ∈ ord, ∀ d ∈ depsOf g n,
        d ∈ seen ∨ (d ∈ ord ∧ List.indexOf d ord < List.indexOf n ord) := by
  intro ord
  induction ord with
  | nil => intro seen _ _ n hn; exact absurd hn (List.not_mem_nil n)
  | cons m rest ih =>
    intro seen hok hnd n hn d hd
    obtain ⟨hdeps, hrest⟩ := hok
    rw [List.nodup_cons] at hnd
    rcases List.mem_cons.mp hn with rfl | hn'
    · exact Or.inl (hdeps d hd)
    · have hnm : m ≠ n := fun h => hnd.1 (h ▸ hn')
      rcases ih _ hrest hnd.2 n hn' d hd with hseen | ⟨hdm, hlt⟩
      · rcases List.mem_append.mp hseen with h' | h'
        · exact Or.inl h'
        · rw [List.mem_singleton] at h'
          subst h'
          refine Or.inr ⟨List.mem_cons_self d rest, ?_⟩
          rw [List.indexOf_cons_self, List.indexOf_cons_ne _ hnm]
          exact Nat.succ_pos _
      · have hdm' : m ≠ d := fun h => hnd.1 (h ▸ hdm)
        refine Or.inr ⟨List.mem_cons_of_mem m hdm, ?_⟩
        rw [List.indexOf_cons_ne _ hnm, List.indexOf_cons_ne _ hdm']
        exact Nat.succ_lt_succ hlt

/-! ## Lemmas: chains, paths and cycles -/

theorem lastOf_append (l₁ : List Name) (d : Name) (l₂ : List Name) :
    ∀ a, lastOf a (l₁ ++ d :: l₂) = lastOf d l₂ := by
  induction l₁ with
  | nil => intro a; rfl
  | cons x t ih => intro a; exact ih x

theorem lastOf_of_cons_eq {a : Name} {l l₁ l₂ : List Name} {d : Name}
    (h : a :: l = l₁ ++ d :: l₂) : lastOf a l = lastOf d l₂ := by
  cases l₁ with
  | nil =>
    injection h with h1 h2
    subst h1; subst h2
    rfl
  | cons x t =>
    injection h with h1 h2
    subst h1
    rw [h2]
    exact lastOf_append t d l₂ _

theorem lastOf_mem : ∀ (l : List Name) (a : Name), lastOf a l ∈ a :: l := by
  intro l
  induction l with
  | nil => intro a; exact List.mem_singleton.mpr rfl
  | cons b t ih => intro a; exact List.mem_cons_of_mem a (ih b)

theorem chain_snoc {R : Name → Name → Prop} :
    ∀ (l : List Name) (a d : Name), List.Chain R a l → R (lastOf a l) d →
      List.Chain R a (l ++ [d]) := by
  intro l
  induction l with
  | nil =>
    intro a d _ h
    exact List.Chain.cons h List.Chain.nil
  | cons b t ih =>
    intro a d hc h
    rw [List.chain_cons] at hc
    exact List.chain_cons.mpr ⟨hc.1, ih b d hc.2 h⟩

theorem chain_suffix {R : Name → Name → Prop} {l₁ l₂ : List Name} {a b : Name}
    {l : List Name} (hc : List.Chain R a l) (he : a :: l = l₁ ++ b :: l₂) :
    List.Chain R b l₂ := by
  cases l₁ with
  | nil =>
    injection he with h1 h2
    subst h1; subst h2
    exact hc
  | cons x t =>
    injection he with h1 h2
    subst h1
    rw [h2] at hc
    exact (List.chain_split.mp hc).2

theorem chain_mem_dep {R : Name → Name → Prop} :
    ∀ (m : List Name) (a : Name), List.Chain R a m →
      ∀ x ∈ (a :: m).dropLast, ∃ y ∈ m, R x y := by
  intro m
  induction m with
  | nil =>
    intro a _ x hx
    exact absurd hx (List.not_mem_nil x)
  | cons b t ih =>
    intro a hc x hx
    rw [List.chain_cons] at hc
    rw [show (a :: b :: t).dropLast = a :: (b :: t).dropLast from rfl] at hx
    rcases List.mem_cons.mp hx with rfl | hx'
    · exact ⟨b, List.mem_cons_self b t, hc.1⟩
    · obtain ⟨y, hy, hR⟩ := ih b hc.2 x hx'
      exact ⟨y, List.mem_cons_of_mem b hy, hR⟩

theorem isCycle_chain {g : Graph} {c : List Name} (h : isCycle g c) :
    ∃ n l, c = n :: l ∧ List.Chain (Dep g) n (l ++ [n]) := by
  obtain ⟨hne, hchain⟩ := h
  cases c with
  | nil => exact absurd rfl hne
  | cons n l =>
    refine ⟨n, l, rfl, ?_⟩
    exact hchain

theorem cycle_mem_allNodes {g : Graph} {c : List Name} (h : isCycle g c) :
    ∀ x ∈ c, x ∈ allNodes g := by
  obtain ⟨n, l, rfl, hchain⟩ := isCycle_chain h
  intro x hx
  have hx' : x ∈ (n :: (l ++ [n])).dropLast := by
    rw [show n :: (l ++ [n]) = (n :: l) ++ [n] from rfl, List.dropLast_concat]
    exact hx
  obtain ⟨y, _, hR⟩ := chain_mem_dep (l ++ [n]) n hchain x hx'
  exact (mem_allNodes_of_dep hR).1

theorem cycle_rotate {g : Graph} {c : List Name} (h : isCycle g c) {x : Name}
    (hx : x ∈ c) : ∃ l', List.Chain (Dep g) x (l' ++ [x]) := by
  obtain ⟨n, l, rfl, hchain⟩ := isCycle_chain h
  rcases List.mem_cons.mp hx with rfl | hx'
  · exact ⟨l, hchain⟩
  · obtain ⟨l₁, l₂, hsplit⟩ := List.append_of_mem hx'
    rw [hsplit, show (l₁ ++ x :: l₂) ++ [n] = l₁ ++ x :: (l₂ ++ [n]) by simp] at hchain
    obtain ⟨hA, hB⟩ := List.chain_split.mp hchain
    refine ⟨l₂ ++ n :: l₁, ?_⟩
    rw [show (l₂ ++ n :: l₁) ++ [x] = l₂ ++ n :: (l₁ ++ [x]) by simp]
    exact List.chain_split.mpr ⟨hB, hA⟩

theorem chain_pos_lt {g : Graph} {ord : List Name} (hok : topoOK g [] ord)
    (hnd : ord.Nodup) :
    ∀ (m : List Name) (a : Name), List.Chain (Dep g) a m → a ∈ ord →
      ∀ y ∈ m, y ∈ ord ∧ List.indexOf y ord < List.indexOf a ord := by
  intro m
  induction m with
  | nil => intro a _ _ y hy; exact absurd hy (List.not_mem_nil y)
  | cons b t ih =>
    intro a hc ha y hy
    rw [List.chain_cons] at hc
    have hb : b ∈ ord ∧ List.indexOf b ord < List.indexOf a ord := by
      rcases topoOK_pos ord [] hok hnd a ha b hc.1 with h' | h'
      · exact absurd h' (List.not_mem_nil b)
      · exact h'
    rcases List.mem_cons.mp hy with rfl | hy'
    · exact hb
    · obtain ⟨h1, h2⟩ := ih b hc.2 hb.1 y hy'
      exact ⟨h1, Nat.lt_trans h2 hb.2⟩

theorem cycle_disjoint_topo {g : Graph} {c : List Name} (hcyc : isCycle g c)
    {ord : List Name} (hok : topoOK g [] ord) (hnd : ord.Nodup) :
    ∀ x ∈ c, x ∉ ord := by
  intro x hx hmem
  obtain ⟨l', hchain⟩ := cycle_rotate hcyc hx
  have := chain_pos_lt hok hnd _ x hchain hmem x (by simp)
  exact absurd this.2 (lt_irrefl _)

/-! ## Lemmas: Kahn's algorithm -/

theorem nodup_le_length {l l' : List Name} (h : l.Nodup) (hs : ∀ x ∈ l, x ∈ l') :
    l.length ≤ l'.length := by
  calc l.length = l.toFinset.card := (List.toFinset_card_of_nodup h).symm
    _ ≤ l'.toFinset.card := by
        refine Finset.card_le_card ?_
        intro a ha
        rw [List.mem_toFinset] at ha ⊢
        exact hs a ha
    _ ≤ l'.length := List.toFinset_card_le l'

theorem mem_of_nodup_subset_length {l l' : List Name} (hnd : l.Nodup)
    (hnd' : l'.Nodup) (hsub : ∀ x ∈ l, x ∈ l') (hlen : l'.length ≤ l.length) :
    ∀ x ∈ l', x ∈ l := by
  have hfs : l.toFinset ⊆ l'.toFinset := by
    intro a ha
    rw [List.mem_toFinset] at ha ⊢
    exact hsub a ha
  have hcard : l'.toFinset.card ≤ l.toFinset.card := by
    rw [List.toFinset_card_of_nodup hnd, List.toFinset_card_of_nodup hnd']
    exact hlen
  have heq := Finset.eq_of_subset_of_card_le hfs hcard
  intro x hx
  have : x ∈ l'.toFinset := List.mem_toFinset.mpr hx
  rw [← heq] at this
  exact List.mem_toFinset.mp this

theorem done_extend {g : Graph} {done : List Name} (h1 : done.Nodup)
    (h2 : ∀ n ∈ done, n ∈ allNodes g) :
    (done ++ readyNodes g done).Nodup ∧
      (∀ n ∈ done ++ readyNodes g done, n ∈ allNodes g) := by
  constructor
  · refine List.Nodup.append h1 (readyNodes_nodup g done) ?_
    intro a ha hmem
    exact (mem_readyNodes.mp hmem).2.1 ha
  · intro n hn
    rcases List.mem_append.mp hn with h | h
    · exact h2 n h
    · exact (mem_readyNodes.mp h).1

theorem kahnAux_inv (g : Graph) :
    ∀ (fuel : Nat) (done : List Name),
      done.Nodup → (∀ n ∈ done, n ∈ allNodes g) → topoOK g [] done →
      (kahnAux g fuel done).Nodup ∧ (∀ n ∈ kahnAux g fuel done, n ∈ allNodes g) ∧
        topoOK g [] (kahnAux g fuel done) := by
  intro fuel
  induction fuel with
  | zero => intro done h1 h2 h3; exact ⟨h1, h2, h3⟩
  | succ fuel ih =>
    intro done h1 h2 h3
    rw [show kahnAux g (fuel + 1) done = if readyNodes g done = [] then done
      else kahnAux g fuel (done ++ readyNodes g done) from rfl]
    split
    · exact ⟨h1, h2, h3⟩
    · obtain ⟨h1', h2'⟩ := done_extend h1 h2
      refine ih _ h1' h2' ?_
      rw [topoOK_append]
      refine ⟨h3, topoOK_of_seen _ _ ?_⟩
      intro x hx d hd
      exact List.mem_append_right _ ((mem_readyNodes.mp hx).2.2 d hd)

theorem kahnAux_fix (g : Graph) :
    ∀ (fuel : Nat) (done : List Name),
      done.Nodup → (∀ n ∈ done, n ∈ allNodes g) →
      (allNodes g).length + 1 ≤ fuel + done.length →
      readyNodes g (kahnAux g fuel done) = [] := by
  intro fuel
  induction fuel with
  | zero =>
    intro done h1 h2 h3
    exfalso
    have := nodup_le_length h1 h2
    omega
  | succ fuel ih =>
    intro done h1 h2 h3
    rw [show kahnAux g (fuel + 1) done = if readyNodes g done = [] then done
      else kahnAux g fuel (done ++ readyNodes g done) from rfl]
    split
    · next hr => exact hr
    · next hr =>
      obtain ⟨h1', h2'⟩ := done_extend h1 h2
      refine ih _ h1' h2' ?_
      have hlen : (done ++ readyNodes g done).length
          = done.length + (readyNodes g done).length := List.length_append _ _
      have hpos : 0 < (readyNodes g done).length := List.length_pos.mpr hr
      omega

/-! ## Lemmas: `static_order` -/

theorem kahnOrder_inv (g : Graph) :
    (kahnAux g ((allNodes g).length + 1) []).Nodup ∧
      (∀ n ∈ kahnAux g ((allNodes g).length + 1) [], n ∈ allNodes g) ∧
      topoOK g [] (kahnAux g ((allNodes g).length + 1) []) :=
  kahnAux_inv g _ [] List.nodup_nil (by intro n hn; exact absurd hn (List.not_mem_nil n))
    trivial

theorem kahnOrder_fix (g : Graph) :
    readyNodes g (kahnAux g ((allNodes g).length + 1) []) = [] :=
  kahnAux_fix g _ [] List.nodup_nil (by intro n hn; exact absurd hn (List.not_mem_nil n))
    (by simp)

theorem static_order_ok_spec {g : Graph} {order : List Name}
    (h : static_order g = .ok order) :
    order.Nodup ∧ topoOK g [] order ∧ (∀ n ∈ allNodes g, n ∈ order) := by
  unfold static_order at h
  split at h
  · next hlen =>
    injection h with h'
    subst h'
    obtain ⟨h1, h2, h3⟩ := kahnOrder_inv g
    refine ⟨h1, h3, ?_⟩
    exact mem_of_nodup_subset_length h1 (allNodes_nodup g) h2 (le_of_eq hlen.symm)
  · split at h <;> exact absurd h (by simp)

/-- From a non-empty set of nodes each of which keeps a dependency inside
the set, a dependency cycle can be extracted (finite descent). -/
theorem cycle_of_closed_succ {g : Graph} (S : List Name)
    (hS : ∀ n ∈ S, ∃ d ∈ depsOf g n, d ∈ S) (hne : S ≠ []) :
    ∃ c, isCycle g c := by
  have grow : ∀ k, (∃ c, isCycle g c) ∨
      ∃ a l, List.Chain (Dep g) a l ∧ (a :: l).Nodup ∧ (∀ x ∈ a :: l, x ∈ S) ∧
        l.length = k := by
    intro k
    induction k with
    | zero =>
      right
      obtain ⟨a, ha⟩ := List.exists_mem_of_ne_nil S hne
      refine ⟨a, [], List.Chain.nil, List.nodup_singleton a, ?_, rfl⟩
      intro x hx
      rw [List.mem_singleton] at hx
      subst hx
      exact ha
    | succ k ih =>
      rcases ih with hcyc | ⟨a, l, hchain, hnd, hmem, hlen⟩
      · exact Or.inl hcyc
      · obtain ⟨d, hdDep, hdS⟩ := hS _ (hmem _ (lastOf_mem l a))
        by_cases hdmem : d ∈ a :: l
        · left
          obtain ⟨l₁, l₂, hsplit⟩ := List.append_of_mem hdmem
          refine ⟨d :: l₂, by simp, ?_⟩
          show List.Chain (Dep g) d (l₂ ++ [d])
          refine chain_snoc l₂ d d (chain_suffix hchain hsplit) ?_
          rw [← lastOf_of_cons_eq hsplit]
          exact hdDep
        · right
          refine ⟨a, l ++ [d], chain_snoc l a d hchain hdDep, ?_, ?_, by simp [hlen]⟩
          · rw [show a :: (l ++ [d]) = (a :: l) ++ [d] from rfl]
            refine List.Nodup.append hnd (List.nodup_singleton d) ?_
            intro x hx hxd
            rw [List.mem_singleton] at hxd
            subst hxd
            exact hdmem hx
          · intro x hx
            rw [show a :: (l ++ [d]) = (a :: l) ++ [d] from rfl, List.mem_append] at hx
            rcases hx with hx | hx
            · exact hmem x hx
            · rw [List.mem_singleton] at hx
              subst hx
              exact hdS
  rcases grow S.length with hcyc | ⟨a, l, _, hnd, hmem, hlen⟩
  · exact hcyc
  · exfalso
    have := nodup_le_length hnd hmem
    rw [List.length_cons, hlen] at this
    omega

theorem static_order_error_cycle {g : Graph} {e : List Name}
    (h : static_order g = .error e) : ∃ c, isCycle g c := by
  unfold static_order at h
  split at h
  · exact absurd h (by simp)
  · next hlen =>
    obtain ⟨hnd, hsub, hok⟩ := kahnOrder_inv g
    have hfix := kahnOrder_fix g
    apply cycle_of_closed_succ
      ((allNodes g).filter
        (fun n => decide (n ∉ kahnAux g ((allNodes g).length + 1) [])))
    · intro n hn
      rw [List.mem_filter, decide_eq_true_eq] at hn
      have hnready : n ∉ readyNodes g (kahnAux g ((allNodes g).length + 1) []) := by
        rw [hfix]
        exact List.not_mem_nil n
      rw [mem_readyNodes] at hnready
      push_neg at hnready
      obtain ⟨d, hd, hdout⟩ := hnready hn.1 hn.2
      refine ⟨d, hd, ?_⟩
      rw [List.mem_filter, decide_eq_true_eq]
      exact ⟨(mem_allNodes_of_dep hd).2, hdout⟩
    · have hlt : (kahnAux g ((allNodes g).length + 1) []).length
          < (allNodes g).length :=
        lt_of_le_of_ne (nodup_le_length hnd hsub) hlen
      have : ∃ n ∈ allNodes g, n ∉ kahnAux g ((allNodes g).length + 1) [] := by
        by_contra hall
        push_neg at hall
        have := nodup_le_length (allNodes_nodup g) hall
        omega
      obtain ⟨n, hn1, hn2⟩ := this
      refine List.ne_nil_of_mem (a := n) ?_
      rw [List.mem_filter, decide_eq_true_eq]
      exact ⟨hn1, hn2⟩

theorem cycleFrom_spec {n : Name} :
    ∀ {path : List Name}, n ∈ path →
      ∃ l₁ l₂, path = l₁ ++ n :: l₂ ∧ cycleFrom n path = n :: l₂ := by
  intro path
  induction path with
  | nil => intro h; exact absurd h (List.not_mem_nil n)
  | cons m rest ih =>
    intro hmem
    by_cases hmn : m = n
    · subst hmn
      exact ⟨[], rest, rfl, by simp [cycleFrom]⟩
    · have hnrest : n ∈ rest := by
        rcases List.mem_cons.mp hmem with h | h
        · exact absurd h.symm hmn
        · exact h
      obtain ⟨l₁, l₂, hsp, hcf⟩ := ih hnrest
      refine ⟨m :: l₁, l₂, by rw [hsp]; rfl, ?_⟩
      rw [show cycleFrom n (m :: rest)
        = if m = n then m :: rest else cycleFrom n rest from rfl, if_neg hmn, hcf]

/-- Started on a never-emitted node, the walk finds a repeat and returns a
genuine dependency cycle in the first-node-repeated form. -/
theorem walkCycle_spec {g : Graph} {ord : List Name}
    (hclosure : ∀ m, m ∈ allNodes g → m ∉ ord →
      ∃ d, d ∈ depsOf g m ∧ d ∉ ord) :
    ∀ (fuel : Nat) (n : Name) (path : List Name),
      n ∈ allNodes g → n ∉ ord →
      (path = [] ∨ ∃ a l, path = a :: l ∧ List.Chain (Dep g) a l ∧
        Dep g (lastOf a l) n) →
      (∀ x ∈ path, x ∈ allNodes g ∧ x ∉ ord) →
      path.Nodup →
      (allNodes g).length + 1 ≤ fuel + path.length →
      ∃ c, isCycle g c ∧ walkCycle g ord fuel n path = c ++ c.take 1 := by
  intro fuel
  induction fuel with
  | zero =>
    intro n path _ _ _ hblocked hnd hbound
    exfalso
    have := nodup_le_length hnd (fun x hx => (hblocked x hx).1)
    omega
  | succ fuel ih =>
    intro n path hn hnout hpath hblocked hnd hbound
    rw [show walkCycle g ord (fuel + 1) n path
      = if n ∈ path then cycleFrom n path ++ [n]
        else match nextBlocked g ord n with
          | none => []
          | some d => walkCycle g ord fuel d (path ++ [n]) from rfl]
    split
    · next hmem =>
      rcases hpath with rfl | ⟨a, l, rfl, hchain, hdep⟩
      · exact absurd hmem (List.not_mem_nil n)
      · obtain ⟨l₁, l₂, hsplit, hcf⟩ := cycleFrom_spec hmem
        refine ⟨n :: l₂, ⟨by simp, ?_⟩, ?_⟩
        · show List.Chain (Dep g) n (l₂ ++ [n])
          refine chain_snoc l₂ n n (chain_suffix hchain hsplit) ?_
          rw [← lastOf_of_cons_eq hsplit]
          exact hdep
        · rw [hcf]
          rfl
    · next hmem =>
      cases hnext : nextBlocked g ord n with
      | none =>
        exfalso
        obtain ⟨d, hd, hdout⟩ := hclosure n hn hnout
        unfold nextBlocked at hnext
        rw [List.find?_eq_none] at hnext
        exact hnext d hd (decide_eq_true hdout)
      | some d =>
        unfold nextBlocked at hnext
        have hd : d ∈ depsOf g n := List.mem_of_find?_eq_some hnext
        have hdout : d ∉ ord := by
          have := List.find?_some hnext
          simpa using this
        refine ih d (path ++ [n]) (mem_allNodes_of_dep hd).2 hdout ?_ ?_ ?_ ?_
        · right
          rcases hpath with rfl | ⟨a, l, rfl, hchain, hdep⟩
          · exact ⟨n, [], rfl, List.Chain.nil, hd⟩
          · refine ⟨a, l ++ [n], rfl, chain_snoc l a n hchain hdep, ?_⟩
            rw [show l ++ [n] = l ++ n :: [] from rfl, lastOf_append]
            exact hd
        · intro x hx
          rcases List.mem_append.mp hx with hx | hx
          · exact hblocked x hx
          · rw [List.mem_singleton] at hx
            subst hx
            exact ⟨hn, hnout⟩
        · refine List.Nodup.append hnd (List.nodup_singleton n) ?_
          intro x hx hx2
          rw [List.mem_singleton] at hx2
          subst hx2
          exact hmem hx
        · rw [List.length_append, List.length_singleton]
          omega

/-- When the emitted order is incomplete, `static_order` returns
`CycleError` whose payload is one detected dependency cycle, first node
repeated at the end. -/
theorem static_order_error_spec (g : Graph)
    (hne : ¬ (kahnAux g ((allNodes g).length + 1) []).length
      = (allNodes g).length) :
    ∃ e, static_order g = .error e ∧
      ∃ c, isCycle g c ∧ e = c ++ c.take 1 := by
  obtain ⟨hnd, hsub, hok⟩ := kahnOrder_inv g
  have hfix := kahnOrder_fix g
  have hclosure : ∀ m, m ∈ allNodes g →
      m ∉ kahnAux g ((allNodes g).length + 1) [] →
      ∃ d, d ∈ depsOf g m ∧ d ∉ kahnAux g ((allNodes g).length + 1) [] := by
    intro m hm hmout
    have hnready : m ∉ readyNodes g (kahnAux g ((allNodes g).length + 1) []) := by
      rw [hfix]
      exact List.not_mem_nil m
    rw [mem_readyNodes] at hnready
    push_neg at hnready
    obtain ⟨d, hd, hdout⟩ := hnready hm hmout
    exact ⟨d, hd, hdout⟩
  have hex : ∃ n ∈ allNodes g, n ∉ kahnAux g ((allNodes g).length + 1) [] := by
    by_contra hall
    push_neg at hall
    have h1 := nodup_le_length (allNodes_nodup g) hall
    have h2 := nodup_le_length hnd hsub
    omega
  unfold static_order
  rw [if_neg hne]
  cases hfil : (allNodes g).filter
      (fun n => decide (n ∉ kahnAux g ((allNodes g).length + 1) [])) with
  | nil =>
    exfalso
    obtain ⟨n, hn1, hn2⟩ := hex
    have hmemf : n ∈ (allNodes g).filter
        (fun n => decide (n ∉ kahnAux g ((allNodes g).length + 1) [])) := by
      rw [List.mem_filter, decide_eq_true_eq]
      exact ⟨hn1, hn2⟩
    rw [hfil] at hmemf
    exact List.not_mem_nil n hmemf
  | cons n0 rest =>
    have hn0 : n0 ∈ (allNodes g).filter
        (fun n => decide (n ∉ kahnAux g ((allNodes g).length + 1) [])) := by
      rw [hfil]
      exact List.mem_cons_self n0 rest
    rw [List.mem_filter, decide_eq_true_eq] at hn0
    obtain ⟨c, hcyc, hres⟩ := walkCycle_spec hclosure ((allNodes g).length + 1)
      n0 [] hn0.1 hn0.2 (Or.inl rfl)
      (fun x hx => absurd hx (List.not_mem_nil x)) List.nodup_nil (by simp)
    exact ⟨_, rfl, c, hcyc, hres⟩

/-- A graph with a cycle never yields a pack order. -/
theorem static_order_cycle_not_ok {g : Graph} {c : List Name}
    (hc : isCycle g c) : ∀ order, static_order g ≠ .ok order := by
  intro order hok
  obtain ⟨hnd, hok', hcomp⟩ := static_order_ok_spec hok
  obtain ⟨x, hx⟩ := List.exists_mem_of_ne_nil c hc.1
  exact cycle_disjoint_topo hc hok' hnd x hx
    (hcomp x (cycle_mem_allNodes hc x hx))

theorem static_order_ok_of_acyclic {g : Graph} (hacyc : ∀ c, ¬ isCycle g c) :
    ∃ order, static_order g = .ok order := by
  cases horder : static_order g with
  | error e =>
    obtain ⟨c, hc⟩ := static_order_error_cycle horder
    exact absurd hc (hacyc c)
  | ok order => exact ⟨order, rfl⟩

/-! ## Lemmas: the graph builder -/

theorem build_dep_graph_keys (images : List (Name × AvbHeader)) :
    (build_dep_graph images).map Prod.fst = images.map Prod.fst := by
  unfold build_dep_graph
  rw [List.map_map]
  rfl

theorem mem_build_dep_graph {images : List (Name × AvbHeader)}
    {p : Name × AvbHeader} (hp : p ∈ images) :
    (p.1, (p.2.descriptors.filterMap (fun d => d.partition_name)).filter
      (fun n => decide (n ≠ p.1))) ∈ build_dep_graph images :=
  List.mem_map.mpr ⟨p, hp, rfl⟩

theorem child_mem_deps {p : Name × AvbHeader} {desc : Descriptor} {child : Name}
    (hdesc : desc ∈ p.2.descriptors) (hpn : desc.partition_name = some child)
    (hne : child ≠ p.1) :
    child ∈ (p.2.descriptors.filterMap (fun d => d.partition_name)).filter
      (fun n => decide (n ≠ p.1)) := by
  rw [List.mem_filter, decide_eq_true_eq, List.mem_filterMap]
  exact ⟨⟨desc, hdesc, hpn⟩, hne⟩

/-! ## Claims about the sequencer -/

/-- C1 counterexample: tie-breaking among simultaneously-eligible nodes is
not a function of the abstract graph.  `gOrd1` and `gOrd2` have the same
keys and the same dependency sets (the lists are permutations of each
other, modelling two hash-randomized iteration orders of the source's
`set()`), yet the produced pack orders differ. -/
theorem c1_counterexample :
    gOrd1.map Prod.fst = gOrd2.map Prod.fst ∧
      (depsOf gOrd1 "vbmeta").Perm (depsOf gOrd2 "vbmeta") ∧
      depsOf gOrd1 "a" = depsOf gOrd2 "a" ∧
      depsOf gOrd1 "b" = depsOf gOrd2 "b" ∧
      static_order gOrd1 = .ok ["a", "b", "vbmeta"] ∧
      static_order gOrd2 = .ok ["b", "a", "vbmeta"] ∧
      (["a", "b", "vbmeta"] : List Name) ≠ ["b", "a", "vbmeta"] := by
  refine ⟨rfl, by decide, rfl, rfl, rfl, rfl, by decide⟩

/-- C1 (amended): for every acyclic dependency graph built from the
per-partition headers, `static_order` produces a pack order that contains
every partition and places every partition strictly after all partitions
it references via `partition_name`-bearing descriptors.  Tie-breaking
among simultaneously-eligible nodes follows the iteration order of the
dependency sets, which the source leaves hash-randomized, so it is not
determined by the abstract graph alone (see `c1_counterexample`). -/
theorem c1_sequencer_topological_order (images : List (Name × AvbHeader))
    (hkeys : (images.map Prod.fst).Nodup)
    (hacyc : ∀ c, ¬ isCycle (build_dep_graph images) c) :
    ∃ order, static_order (build_dep_graph images) = .ok order ∧
      order.Nodup ∧
      (∀ p ∈ images, p.1 ∈ order) ∧
      (∀ p ∈ images, ∀ desc ∈ p.2.descriptors, ∀ child,
        desc.partition_name = some child → child ≠ p.1 →
        child ∈ order ∧ List.indexOf child order < List.indexOf p.1 order) := by
  obtain ⟨order, hord⟩ := static_order_ok_of_acyclic hacyc
  obtain ⟨hnd, hok, hcomp⟩ := static_order_ok_spec hord
  have hgkeys : ((build_dep_graph images).map Prod.fst).Nodup := by
    rw [build_dep_graph_keys]
    exact hkeys
  refine ⟨order, hord, hnd, ?_, ?_⟩
  · intro p hp
    exact hcomp _ (mem_allNodes_of_key (mem_build_dep_graph hp))
  · intro p hp desc hdesc child hpn hne
    have hentry := mem_build_dep_graph hp
    have hdep : child ∈ depsOf (build_dep_graph images) p.1 := by
      rw [depsOf_eq_of_keys_nodup hgkeys hentry]
      exact child_mem_deps hdesc hpn hne
    have hp1 : p.1 ∈ order := hcomp _ (mem_allNodes_of_key hentry)
    rcases topoOK_pos order [] hok hnd p.1 hp1 child hdep with h | h
    · exact absurd h (List.not_mem_nil child)
    · exact h

/-- Witness for the amended C1 on the concrete image set `imagesW`. -/
theorem c1_witness :
    (imagesW.map Prod.fst).Nodup ∧
      ∃ order, static_order (build_dep_graph imagesW) = .ok order ∧
        "boot" ∈ order ∧
        List.indexOf "vbmeta_system" order < List.indexOf "vbmeta" order := by
  refine ⟨by decide, ?_⟩
  obtain ⟨order, hord, hnd, hmem, hedge⟩ :=
    c1_sequencer_topological_order imagesW (by decide) (fun c hc => by
      exact static_order_cycle_not_ok hc
        ["boot", "system", "vbmeta_system", "vbmeta"] rfl)
  refine ⟨order, hord, ?_, ?_⟩
  · exact hmem ("boot", baseHeader 0 [hashDesc "boot"]) (by simp [imagesW])
  · exact (hedge ("vbmeta", baseHeader 0 [chainDesc "vbmeta_system" 1 "k", hashDesc "boot"])
      (by simp [imagesW]) (chainDesc "vbmeta_system" 1 "k") (by simp [baseHeader])
      "vbmeta_system" rfl (by decide)).2

/-- C4: a dependency graph containing a cycle makes the sequencer fail with
`CycleError` naming the partitions of a detected dependency cycle (in
graphlib's form, the cycle's nodes with the first repeated at the end),
and no pack order is produced. -/
theorem c4_cycle_error (g : Graph) (c : List Name) (hc : isCycle g c) :
    (∃ e, static_order g = .error e ∧
      ∃ c', isCycle g c' ∧ e = c' ++ c'.take 1) ∧
      ∀ order, static_order g ≠ .ok order := by
  refine ⟨?_, static_order_cycle_not_ok hc⟩
  have hne : ¬ (kahnAux g ((allNodes g).length + 1) []).length
      = (allNodes g).length := by
    intro hlen
    exact static_order_cycle_not_ok hc _ (by unfold static_order; rw [if_pos hlen])
  exact static_order_error_spec g hne

/-- Witness for C4 on the concrete two-node cycle `gCyc`: the error payload
is `["A", "B", "A"]`, the detected cycle with its first node repeated. -/
theorem c4_witness :
    ∃ e c', static_order gCyc = .error e ∧ isCycle gCyc c' ∧
      e = c' ++ c'.take 1 ∧ "A" ∈ e ∧ "B" ∈ e := by
  have hcyc : isCycle gCyc cCyc := by
    refine ⟨by decide, ?_⟩
    show List.Chain (Dep gCyc) "A" ["B", "A"]
    refine List.Chain.cons ?_ (List.Chain.cons ?_ List.Chain.nil)
    · show "B" ∈ depsOf gCyc "A"
      decide
    · show "A" ∈ depsOf gCyc "B"
      decide
  obtain ⟨⟨e, he, c', hc', hec⟩, -⟩ := c4_cycle_error gCyc cCyc hcyc
  have hee : e = ["A", "B", "A"] := by
    have h2 : static_order gCyc = .error ["A", "B", "A"] := rfl
    rw [h2] at he
    injection he with h3
    exact h3.symm
  refine ⟨e, c', he, hc', hec, ?_, ?_⟩
  · rw [hee]; decide
  · rw [hee]; decide

/-- C7 counterexample: a vbmeta referencing the unknown partition `boot`
does not make the graph builder or sequencer fail; the produced pack order
contains the unresolved name. -/
theorem c7_counterexample :
    static_order (build_dep_graph imagesU) = .ok ["boot", "vbmeta"] ∧
      "boot" ∉ imagesU.map Prod.fst :=
  ⟨rfl, by decide⟩

/-- C7 (amended): a referenced `partition_name` with no corresponding known
partition is not rejected; it enters the dependency graph as an implicit
node and appears in any produced pack order (the failure only surfaces
later, when the pack loop tries to open the missing partition's
metadata). -/
theorem c7_unresolved_name_in_order (images : List (Name × AvbHeader))
    (p : Name × AvbHeader) (hp : p ∈ images) (desc : Descriptor)
    (hdesc : desc ∈ p.2.descriptors) (child : Name)
    (hpn : desc.partition_name = some child) (hne : child ≠ p.1)
    (order : List Name)
    (hok : static_order (build_dep_graph images) = .ok order) :
    child ∈ order := by
  obtain ⟨-, -, hcomp⟩ := static_order_ok_spec hok
  exact hcomp _ (mem_allNodes_of_entry_dep (mem_build_dep_graph hp)
    (child_mem_deps hdesc hpn hne))

/-- Witness for the amended C7 on `imagesU`. -/
theorem c7_witness :
    ∃ order, static_order (build_dep_graph imagesU) = .ok order ∧ "boot" ∈ order :=
  ⟨["boot", "vbmeta"], rfl,
    c7_unresolved_name_in_order imagesU ("vbmeta", baseHeader 0 [chainDesc "boot" 1 "k"])
      (by simp [imagesU]) (chainDesc "boot" 1 "k") (by simp [baseHeader]) "boot" rfl
      (by decide) ["boot", "vbmeta"] rfl⟩

/-! ## Lemmas: the propagator -/

theorem mapOption_getElem? (f : α → Option β) :
    ∀ (l : List α) (l' : List β), mapOption f l = some l' →
      ∀ i : Nat, l'[i]? = (l[i]?).bind f := by
  intro l
  induction l with
  | nil =>
    intro l' h i
    injection h with h'
    subst h'
    simp
  | cons a rest ih =>
    intro l' h i
    cases hfa : f a with
    | none => simp [mapOption, hfa] at h
    | some b =>
      cases hrest : mapOption f rest with
      | none => simp [mapOption, hfa, hrest] at h
      | some bs =>
        simp only [mapOption, hfa, hrest] at h
        injection h with h'
        subst h'
        cases i with
        | zero => simp [hfa]
        | succ n =>
          simp only [List.getElem?_cons_succ]
          exact ih bs hrest n

/-- C2: when a vbmeta header is prepared for packing, a
`partition_name`-bearing descriptor whose child has a recorded public key
(the child was signed) is replaced by the same descriptor with only the
public-key field updated, all other fields (in particular the
rollback-index-location) unchanged; when the child has no recorded public
key (it was unsigned), the descriptor is replaced wholesale by the child's
recorded post-pack descriptor. -/
theorem c2_propagator_update (avb_public_keys : List (Name × String))
    (avb_descriptors : List (Name × Descriptor)) (h h' : AvbHeader) (i : Nat)
    (d : Descriptor) (child : Name)
    (hprep : prepare_vbmeta avb_public_keys avb_descriptors h = some h')
    (hd : h.descriptors[i]? = some d)
    (hname : d.partition_name = some child) :
    (∀ key, assocGet child avb_public_keys = some key →
      ∃ e, h'.descriptors[i]? = some e ∧ e.public_key = key ∧
        e.rollback_index_location = d.rollback_index_location ∧
        e.type = d.type ∧ e.partition_name = d.partition_name ∧
        e.other = d.other) ∧
    (assocGet child avb_public_keys = none →
      ∀ d', assocGet child avb_descriptors = some d' →
        h'.descriptors[i]? = some d') := by
  unfold prepare_vbmeta at hprep
  cases hmap : mapOption (propagate_descriptor avb_public_keys avb_descriptors)
      h.descriptors with
  | none => rw [hmap] at hprep; exact absurd hprep (by simp)
  | some ds' =>
    rw [hmap] at hprep
    injection hprep with hprep'
    have hdesc' : h'.descriptors = ds' := by rw [← hprep']
    have hi := mapOption_getElem? _ _ _ hmap i
    rw [hd] at hi
    constructor
    · intro key hkey
      refine ⟨{ d with public_key := key }, ?_, rfl, rfl, rfl, rfl, rfl⟩
      rw [hdesc', hi]
      simp [propagate_descriptor, hname, hkey]
    · intro hnone d' hd'
      rw [hdesc', hi]
      simp [propagate_descriptor, hname, hnone, hd']

/-- Witness for C2 on the concrete header `hdrP`: the signed child `boot`
gets only its public key refreshed (rollback index location 3 kept), the
unsigned child `system` gets its descriptor replaced wholesale. -/
theorem c2_witness :
    prepare_vbmeta pkW dsW hdrP = some hdrP' ∧
      (∃ e, hdrP'.descriptors[0]? = some e ∧ e.public_key = "NEWKEY" ∧
        e.rollback_index_location = 3) ∧
      hdrP'.descriptors[1]? = some (hashDesc "system") := by
  refine ⟨rfl, ?_, ?_⟩
  · obtain ⟨e, he, hpk, hrbl, -, -, -⟩ :=
      (c2_propagator_update pkW dsW hdrP hdrP' 0 (chainDesc "boot" 3 "OLDKEY") "boot"
        rfl rfl rfl).1 "NEWKEY" rfl
    exact ⟨e, he, hpk, hrbl⟩
  · exact (c2_propagator_update pkW dsW hdrP hdrP' 1 (hashDesc "system") "system"
      rfl rfl rfl).2 rfl (hashDesc "system") rfl

/-! ## Claims about the pack-loop flag handling -/

/-- C3 counterexample: a non-vbmeta partition is packed with its header
flags untouched; input flags 3 do not come out as 0. -/
theorem c3_counterexample :
    ∃ h', pack_prepare "boot" [] [] hdrB = some h' ∧ h'.flags ≠ 0 := by
  refine ⟨hdrB, rfl, by decide⟩

/-- C3 (amended): the pack loop clears the verification-disabled and
hashtree-disabled flag bits (the low two bits) only for vbmeta-class
partitions (names starting with `vbmeta`), so their output flags are
`flags & ~3` (3 becomes 0, 5 becomes 4); all other partitions' headers are
passed to the codec unchanged. -/
theorem c3_flags_cleared_for_vbmeta_only (name : Name)
    (avb_public_keys : List (Name × String))
    (avb_descriptors : List (Name × Descriptor)) (h h' : AvbHeader) :
    (startswith name "vbmeta" = true →
      pack_prepare name avb_public_keys avb_descriptors h = some h' →
      h'.flags = h.flags - h.flags % 4 ∧ h'.flags % 4 = 0) ∧
    (startswith name "vbmeta" = false →
      pack_prepare name avb_public_keys avb_descriptors h = some h' → h' = h) := by
  constructor
  · intro hvb hpack
    unfold pack_prepare at hpack
    rw [hvb] at hpack
    simp only [if_true] at hpack
    unfold prepare_vbmeta at hpack
    cases hmap : mapOption (propagate_descriptor avb_public_keys avb_descriptors)
        h.descriptors with
    | none => rw [hmap] at hpack; exact absurd hpack (by simp)
    | some ds' =>
      rw [hmap] at hpack
      injection hpack with hpack'
      constructor
      · rw [← hpack']
      · rw [← hpack']
        show (h.flags - h.flags % 4) % 4 = 0
        omega
  · intro hvb hpack
    unfold pack_prepare at hpack
    rw [hvb] at hpack
    simp only [Bool.false_eq_true, if_false] at hpack
    injection hpack with hpack'
    exact hpack'.symm

/-- Witness for the amended C3: vbmeta flags 3 become 0 and 5 become 4;
the non-vbmeta header `hdrB` passes through unchanged. -/
theorem c3_witness :
    ((baseHeader 0 []).flags = hdrV3.flags - hdrV3.flags % 4 ∧
      (baseHeader 0 []).flags % 4 = 0) ∧
    ((baseHeader 4 []).flags = hdrV5.flags - hdrV5.flags % 4 ∧
      (baseHeader 4 []).flags % 4 = 0) ∧
    hdrB = hdrB := by
  refine ⟨?_, ?_, ?_⟩
  · exact (c3_flags_cleared_for_vbmeta_only "vbmeta" [] [] hdrV3
      (baseHeader 0 [])).1 rfl rfl
  · exact (c3_flags_cleared_for_vbmeta_only "vbmeta" [] [] hdrV5
      (baseHeader 4 [])).1 rfl rfl
  · exact (c3_flags_cleared_for_vbmeta_only "boot" [] [] hdrB hdrB).2 rfl rfl

/-! ## Claims about the synthesizer -/

/-- C5 counterexample: for a `ChainPartition` reference descriptor the
synthesized signature field has 512 zero characters, not 1024, and the
synthesized header's rollback index location is 0, not copied from the
reference descriptor (here 7). -/
theorem c5_counterexample :
    (avb_generate_metadata refDesc).header.signature.length = 512 ∧
      (avb_generate_metadata refDesc).header.signature.length ≠ 1024 ∧
      (avb_generate_metadata refDesc).header.rollback_index_location = 0 ∧
      refDesc.rollback_index_location = 7 := by
  have hsig : (avb_generate_metadata refDesc).header.signature = zeros 512 := by
    simp [avb_generate_metadata, refDesc, chainDesc]
  refine ⟨?_, ?_, rfl, rfl⟩
  · rw [hsig, zeros_length]
  · rw [hsig, zeros_length]
    decide

/-- C5 (amended): the synthesizer always produces flags 0, header rollback
index location 0, and embeds the reference descriptor unchanged as the
only descriptor; for a `ChainPartition` reference it marks the header
signed (`Sha256Rsa4096`) with hash/signature/public-key placeholder fields
of exactly 64/512/1032 zero characters; otherwise it marks the header
unsigned (`None`) with empty hash/signature/public-key fields. -/
theorem c5_synthesizer_fields (d : Descriptor) :
    (avb_generate_metadata d).header.flags = 0 ∧
    (avb_generate_metadata d).header.rollback_index_location = 0 ∧
    (avb_generate_metadata d).header.descriptors = [d] ∧
    (d.type = "ChainPartition" →
      (avb_generate_metadata d).header.algorithm_type = "Sha256Rsa4096" ∧
      (avb_generate_metadata d).header.hash.length = 64 ∧
      (avb_generate_metadata d).header.signature.length = 512 ∧
      (avb_generate_metadata d).header.public_key.length = 1032) ∧
    (d.type ≠ "ChainPartition" →
      (avb_generate_metadata d).header.algorithm_type = "None" ∧
      (avb_generate_metadata d).header.hash = "" ∧
      (avb_generate_metadata d).header.signature = "" ∧
      (avb_generate_metadata d).header.public_key = "") := by
  refine ⟨rfl, rfl, rfl, ?_, ?_⟩
  · intro hd
    simp [avb_generate_metadata, hd, zeros_length]
  · intro hd
    simp [avb_generate_metadata, hd]

/-- Witness for the amended C5 at a chain reference and a hash
reference. -/
theorem c5_witness :
    ((avb_generate_metadata (chainDesc "boot" 0 "")).header.algorithm_type
        = "Sha256Rsa4096" ∧
      (avb_generate_metadata (chainDesc "boot" 0 "")).header.signature.length = 512) ∧
    ((avb_generate_metadata (hashDesc "system")).header.algorithm_type = "None" ∧
      (avb_generate_metadata (hashDesc "system")).header.signature = "") := by
  constructor
  · have h := (c5_synthesizer_fields (chainDesc "boot" 0 "")).2.2.2.1 (by decide)
    exact ⟨h.1, h.2.2.1⟩
  · have h := (c5_synthesizer_fields (hashDesc "system")).2.2.2.2 (by decide)
    exact ⟨h.1, h.2.2.1⟩

/-! ## Lemmas: the slot loops -/

theorem unpack_lp_loop_error_b {b : Name} {size : Nat} :
    ∀ slots : List (Name × Nat), (b, size) ∈ slots → endswith b "_b" = true →
      size ≠ 0 → ∃ e, unpack_lp_loop slots = .error e := by
  intro slots
  induction slots with
  | nil => intro h; exact absurd h (List.not_mem_nil _)
  | cons q rest ih =>
    intro hmem hb hsz
    obtain ⟨n, s⟩ := q
    rcases List.mem_cons.mp hmem with heq | hmem'
    · injection heq with h1 h2
      subst h1; subst h2
      exact ⟨b ++ " should be empty", by simp [unpack_lp_loop, hb, hsz]⟩
    · cases hnb : endswith n "_b" with
      | true =>
        by_cases hns : s ≠ 0
        · exact ⟨n ++ " should be empty", by simp [unpack_lp_loop, hnb, hns]⟩
        · obtain ⟨e, he⟩ := ih hmem' hb hsz
          exact ⟨e, by simp [unpack_lp_loop, hnb, hns, he]⟩
      | false =>
        cases hna : endswith n "_a" with
        | true =>
          obtain ⟨e, he⟩ := ih hmem' hb hsz
          exact ⟨e, by simp [unpack_lp_loop, hnb, hna, he]⟩
        | false =>
          exact ⟨"Unknown LP partition name: " ++ n,
            by simp [unpack_lp_loop, hnb, hna]⟩

theorem unpack_lp_loop_error_unknown {x : Name} {size : Nat} :
    ∀ slots : List (Name × Nat), (x, size) ∈ slots → endswith x "_a" = false →
      endswith x "_b" = false → ∃ e, unpack_lp_loop slots = .error e := by
  intro slots
  induction slots with
  | nil => intro h; exact absurd h (List.not_mem_nil _)
  | cons q rest ih =>
    intro hmem ha hb
    obtain ⟨n, s⟩ := q
    rcases List.mem_cons.mp hmem with heq | hmem'
    · injection heq with h1 h2
      subst h1; subst h2
      exact ⟨"Unknown LP partition name: " ++ x,
        by simp [unpack_lp_loop, ha, hb]⟩
    · cases hnb : endswith n "_b" with
      | true =>
        by_cases hns : s ≠ 0
        · exact ⟨n ++ " should be empty", by simp [unpack_lp_loop, hnb, hns]⟩
        · obtain ⟨e, he⟩ := ih hmem' ha hb
          exact ⟨e, by simp [unpack_lp_loop, hnb, hns, he]⟩
      | false =>
        cases hna : endswith n "_a" with
        | true =>
          obtain ⟨e, he⟩ := ih hmem' ha hb
          exact ⟨e, by simp [unpack_lp_loop, hnb, hna, he]⟩
        | false =>
          exact ⟨"Unknown LP partition name: " ++ n,
            by simp [unpack_lp_loop, hnb, hna]⟩

theorem pack_lp_loop_error_unknown {x : Name} :
    ∀ names : List Name, x ∈ names → endswith x "_a" = false →
      endswith x "_b" = false → ∃ e, pack_lp_loop names = .error e := by
  intro names
  induction names with
  | nil => intro h; exact absurd h (List.not_mem_nil _)
  | cons n rest ih =>
    intro hmem ha hb
    rcases List.mem_cons.mp hmem with rfl | hmem'
    · exact ⟨"Unknown LP partition name: " ++ x, by simp [pack_lp_loop, ha, hb]⟩
    · cases hna : endswith n "_a" with
      | true =>
        obtain ⟨e, he⟩ := ih hmem' ha hb
        exact ⟨e, by simp [pack_lp_loop, hna, he]⟩
      | false =>
        cases hnb : endswith n "_b" with
        | true =>
          obtain ⟨e, he⟩ := ih hmem' ha hb
          exact ⟨e, by simp [pack_lp_loop, hna, hnb, he]⟩
        | false =>
          exact ⟨"Unknown LP partition name: " ++ n,
            by simp [pack_lp_loop, hna, hnb]⟩

/-- C6: the dynamic partition mapper rejects every `_b` slot whose image
has non-zero size during unpack, and rejects every slot name ending in
neither `_a` nor `_b`, in both the unpack and the pack direction. -/
theorem c6_slot_validation (slots : List (Name × Nat)) (names : List Name)
    (b x : Name) (size : Nat) :
    ((b, size) ∈ slots → endswith b "_b" = true → size ≠ 0 →
      ∃ e, unpack_lp_loop slots = .error e) ∧
    ((x, size) ∈ slots → endswith x "_a" = false → endswith x "_b" = false →
      ∃ e, unpack_lp_loop slots = .error e) ∧
    (x ∈ names → endswith x "_a" = false → endswith x "_b" = false →
      ∃ e, pack_lp_loop names = .error e) :=
  ⟨fun h1 h2 h3 => unpack_lp_loop_error_b slots h1 h2 h3,
   fun h1 h2 h3 => unpack_lp_loop_error_unknown slots h1 h2 h3,
   fun h1 h2 h3 => pack_lp_loop_error_unknown names h1 h2 h3⟩

/-- Witness for C6: a non-empty `system_b` slot and the suffix-less slot
`weird` each abort the slot loops. -/
theorem c6_witness :
    (∃ e, unpack_lp_loop slotsW = .error e) ∧
      (∃ e, unpack_lp_loop slotsW2 = .error e) ∧
      (∃ e, pack_lp_loop namesW = .error e) := by
  refine ⟨?_, ?_, ?_⟩
  · exact (c6_slot_validation slotsW namesW "system_b" "weird" 5).1
      (by decide) (by decide) (by decide)
  · exact (c6_slot_validation slotsW2 namesW "system_b" "weird" 0).2.1
      (by decide) (by decide) (by decide)
  · exact (c6_slot_validation slotsW namesW "system_b" "weird" 5).2.2
      (by decide) (by decide) (by decide)

/-! ## Claim about the version gate -/

/-- C8: when the codec reports a version below the required minimum, the
run fails before either subcommand executes, and no partition is
processed. -/
theorem c8_version_gate (version : List Nat) (subcommand : Except String (List Name))
    (hlt : tupleLt version AVBROOT_REQUIRED_VERSION = true) :
    (∃ e, main_model version subcommand = .error e) ∧
      processed (main_model version subcommand) = [] := by
  unfold main_model check_avbroot_version
  rw [hlt]
  simp [processed]

/-- Witness for C8 at the too-old version 3.18.5. -/
theorem c8_witness :
    (∃ e, main_model [3, 18, 5] (.ok ["boot"]) = .error e) ∧
      processed (main_model [3, 18, 5] (.ok ["boot"])) = [] :=
  c8_version_gate [3, 18, 5] (.ok ["boot"]) (by decide)

/-! ## Claim about unpack image selection -/

/-- C9: an image file that is not a vbmeta image, is not a dynamic (LP)
partition and is not named by any collected descriptor is silently
skipped: it is not among the images the unpack phase touches. -/
theorem c9_unknown_image_skipped (input_images descriptor_names lp_names : List Name)
    (f : Name) (_hin : f ∈ input_images) (h1 : startswith f "vbmeta" = false)
    (h2 : f ∉ lp_names) (h3 : f ∉ descriptor_names) :
    f ∉ unpacked_images input_images descriptor_names lp_names := by
  unfold unpacked_images
  intro hmem
  rcases List.mem_append.mp hmem with hmem' | hmem'
  · rcases List.mem_append.mp hmem' with hv | hl
    · rw [List.mem_filter] at hv
      have := hv.2
      rw [h1] at this
      exact Bool.false_ne_true this
    · exact h2 hl
  · rw [List.mem_filter] at hmem'
    exact h3 hmem'.1

/-- Witness for C9: the image `mystery` is never unpacked. -/
theorem c9_witness :
    "mystery" ∉ unpacked_images ["vbmeta", "boot", "mystery"] ["boot"] ["system"] :=
  c9_unknown_image_skipped ["vbmeta", "boot", "mystery"] ["boot"] ["system"]
    "mystery" (by decide) (by decide) (by decide) (by decide)

/-! ## Claim about size recomputation -/

/-- C10: `avb_pack` instructs the codec to recompute the image size if and
only if at least one descriptor of the partition's header is a `HashTree`
descriptor. -/
theorem c10_recompute_iff_hashtree (descriptors : List Descriptor) :
    "--recompute-size" ∈ avb_pack_extra_args descriptors ↔
      ∃ d ∈ descriptors, d.type = "HashTree" := by
  unfold avb_pack_extra_args avb_pack_recompute
  split
  · next h =>
    rw [List.any_eq_true] at h
    obtain ⟨d, hd, hdt⟩ := h
    simp only [List.mem_singleton]
    constructor
    · intro _
      exact ⟨d, hd, by simpa using hdt⟩
    · intro _
      trivial
  · next h =>
    constructor
    · intro hmem
      exact absurd hmem (List.not_mem_nil _)
    · rintro ⟨d, hd, hdt⟩
      exact absurd (List.any_eq_true.mpr ⟨d, hd, by simp [hdt]⟩) h

end XiaomiAvbroot
